import Mathlib

/-!
Shallow embedding of the contact-extraction and VCF-batching core of
src/main.py (class VCFConverter and the create_vcf_files / handle_text
glue).  Strings are modelled as List Char; Python None/str optionality is
Option (List Char); Python truthiness of a string or optional string is
made explicit.  All functions are total Lean functions: the Python code
raises no exception on any text input, and totality of the embedding is
the formal counterpart of that.  Loops that advance by more than one
element (the regex scan and the chunking loop) are written with an
explicit fuel argument initialised to the list length, which is an upper
bound on the number of iterations, so that every definition reduces by
kernel evaluation.
-/

/-- Python str.isspace characters relevant to str.strip: space, tab,
newline, carriage return, vertical tab, form feed. -/
def pyIsSpace (c : Char) : Bool :=
  c = ' ' || c = '\t' || c = '\n' || c = '\r' || c.toNat = 11 || c.toNat = 12

/-- Python str.strip(): drop whitespace from both ends. -/
def stripList (s : List Char) : List Char :=
  ((s.dropWhile pyIsSpace).reverse.dropWhile pyIsSpace).reverse

/-- Python text.split(chr 10): split on each newline, keeping empty pieces
(so the empty text splits into one empty piece). -/
def splitOnNewline : List Char → List (List Char)
  | [] => [[]]
  | c :: rest =>
    if c = '\n' then [] :: splitOnNewline rest
    else
      match splitOnNewline rest with
      | [] => [[c]]
      | l :: ls => (c :: l) :: ls

/-- Length of the run of consecutive ASCII digits at the head of the list. -/
def digitRun : List Char → Nat
  | [] => 0
  | c :: cs => if c.isDigit then digitRun cs + 1 else 0

/-- Length matched at the current position by the sub-pattern
[1-9]?[0-9]\x7b7,15\x7d of the phone regex on src/main.py line 51, with
Python re greedy/backtracking semantics: the optional nonzero digit is
taken when at least 7 further digits follow, otherwise it is dropped and
the position must start a run of at least 7 digits; the counted digit
class then takes as many digits as possible, at most 15. -/
def coreLen (s : List Char) : Option Nat :=
  match s with
  | [] => none
  | c :: rest =>
    if '1' ≤ c ∧ c ≤ '9' ∧ 7 ≤ digitRun rest then
      some (1 + min (digitRun rest) 15)
    else if 7 ≤ digitRun (c :: rest) then
      some (min (digitRun (c :: rest)) 15)
    else none

/-- Length matched at the current position by the full phone regex
[\+]?[1-9]?[0-9]\x7b7,15\x7d: a leading plus sign is consumed when present
(backtracking it cannot help, since the rest of the pattern can never
match starting at the plus sign itself). -/
def matchLen (s : List Char) : Option Nat :=
  match s with
  | [] => none
  | c :: rest => if c = '+' then (coreLen rest).map (· + 1) else coreLen (c :: rest)

/-- Python re.findall for the phone regex: scan left to right, take each
leftmost non-overlapping match, resume after it (advancing at least one
character).  Fuel-indexed so it reduces by kernel evaluation; the string
length is enough fuel since every step consumes at least one character. -/
def findAllAux : Nat → List Char → List (List Char)
  | 0, _ => []
  | _, [] => []
  | fuel + 1, c :: rest =>
    match matchLen (c :: rest) with
    | some n => (c :: rest).take n :: findAllAux fuel ((c :: rest).drop (max n 1))
    | none => findAllAux fuel rest

def findAll (s : List Char) : List (List Char) :=
  findAllAux s.length s

/-- The text before the first regex match: re.split(pattern, line)[0].
When the line has no match this is the whole line, matching Python. -/
def prefixBeforeFirstMatch : List Char → List Char
  | [] => []
  | c :: rest =>
    match matchLen (c :: rest) with
    | some _ => []
    | none => c :: prefixBeforeFirstMatch rest

/-- Python str.isdigit on this character model: nonempty and all ASCII
digits. -/
def pyIsdigit (s : List Char) : Bool :=
  !s.isEmpty && s.all Char.isDigit

/-- Keep predicate for line.replace for plus, minus and space: the
characters that survive the three replace calls on src/main.py line 66. -/
def keptBare (c : Char) : Bool :=
  !(c = '+' || c = '-' || c = ' ')

structure ContactRecord where
  name : Option (List Char)
  phone : List Char
deriving DecidableEq

/-- One iteration of the line loop of parse_contacts_from_text
(src/main.py lines 45-70): strip the line, skip it when blank, scan for
phone matches; with matches, the name is the stripped text before the
first match (absent when empty) and each match becomes a record; with no
match, the whole line becomes a bare phone record when stripping plus,
minus and space leaves a nonempty all-digit string. -/
def parseLine (line0 : List Char) : List ContactRecord :=
  let line := stripList line0
  if line.isEmpty then []
  else
    let phones := findAll line
    if phones.isEmpty then
      if pyIsdigit (line.filter keptBare) then [⟨none, line⟩] else []
    else
      let nm := stripList (prefixBeforeFirstMatch line)
      let name := if nm.isEmpty then none else some nm
      phones.map fun p => ⟨name, stripList p⟩

/-- VCFConverter.parse_contacts_from_text (src/main.py lines 40-72). -/
def parse_contacts_from_text (text : List Char) : List ContactRecord :=
  ((splitOnNewline (stripList text)).map parseLine).flatten

/-- Python truthiness test used on names and on the base name: falsy when
None or the empty string. -/
def pyFalsyName : Option (List Char) → Bool
  | none => true
  | some s => s.isEmpty

def digitChar (d : Nat) : Char := Char.ofNat (48 + d)

def natDigitsAux : Nat → Nat → List Char
  | 0, _ => []
  | fuel + 1, n =>
    if n < 10 then [digitChar n]
    else natDigitsAux fuel (n / 10) ++ [digitChar (n % 10)]

/-- Decimal rendering of a natural number, as Python str formatting does. -/
def natToChars (n : Nat) : List Char := natDigitsAux (n + 1) n

/-- The FN value chosen on src/main.py lines 79-83: a falsy (absent or
empty) name becomes base name plus index when the base name is truthy,
else Contact plus index; a truthy name is kept as is. -/
def resolveName (base : Option (List Char)) (i : Nat) (nm : Option (List Char)) : List Char :=
  if pyFalsyName nm then
    if pyFalsyName base then "Contact ".toList ++ natToChars i
    else base.getD [] ++ ' ' :: natToChars i
  else nm.getD []

/-- One vCard record block as emitted on src/main.py lines 85-89. -/
def vcardBlock (nm phone : List Char) : List Char :=
  "BEGIN:VCARD\nVERSION:3.0\nFN:".toList ++ nm ++ "\nTEL:".toList
    ++ phone ++ "\nEND:VCARD\n\n".toList

/-- The accumulation loop of create_vcf_content, carrying the 1-based
enumerate counter. -/
def createVcfAux (base : Option (List Char)) (i : Nat) : List ContactRecord → List Char
  | [] => []
  | c :: cs => vcardBlock (resolveName base i c.name) c.phone ++ createVcfAux base (i + 1) cs

/-- VCFConverter.create_vcf_content (src/main.py lines 74-91). -/
def create_vcf_content (contacts : List ContactRecord) (base : Option (List Char)) : List Char :=
  createVcfAux base 1 contacts

/-- The slicing loop of VCFConverter.split_contacts (src/main.py lines
93-98): slices of length k starting at 0, k, 2k, ...  Fuel-indexed; the
list length is enough fuel when k is positive.  The source raises on
k = 0 (range with zero step); the model returns the empty list there,
outside the domain of every claim. -/
def splitAux {α : Type} : Nat → List α → Nat → List (List α)
  | 0, _, _ => []
  | _, [], _ => []
  | fuel + 1, l, k =>
    if k = 0 then [] else l.take k :: splitAux fuel (l.drop k) k

def split_contacts {α : Type} (l : List α) (k : Nat) : List (List α) :=
  splitAux l.length l k

/-- Python enumerate with a given start index. -/
def enumFrom {α : Type} (n : Nat) : List α → List (Nat × α)
  | [] => []
  | a :: as => (n, a) :: enumFrom (n + 1) as

structure OutputBlob where
  filename : List Char
  content : List Char
deriving DecidableEq

/-- The VCF-producing core of create_vcf_files (src/main.py lines
297-342), with the transport plumbing stripped: a falsy split size (None,
or 0 which no button produces) yields a single blob named over the range
1 to N; otherwise one blob per chunk, chunk i (1-based) named over the
range (i-1)*k+1 to min (i*k) N, each chunk rendered independently with no
base name. -/
def create_vcf_files (contacts : List ContactRecord) (customName : List Char)
    (splitSize : Option Nat) : List OutputBlob :=
  if splitSize = none ∨ splitSize = some 0 then
    [⟨customName ++ "_1-".toList ++ natToChars contacts.length ++ ".vcf".toList,
      create_vcf_content contacts none⟩]
  else
    (enumFrom 1 (split_contacts contacts (splitSize.getD 0))).map fun p =>
      ⟨customName ++ "_".toList ++ natToChars ((p.1 - 1) * splitSize.getD 0 + 1) ++ "-".toList
          ++ natToChars (min (p.1 * splitSize.getD 0) contacts.length) ++ ".vcf".toList,
        create_vcf_content p.2 none⟩

/-- The base-name loop of handle_text (src/main.py lines 231-233): every
record with a falsy name gets base name plus its 1-based global position;
enumerate starts at 0, the format string adds 1. -/
def applyBaseName (contacts : List ContactRecord) (base : List Char) : List ContactRecord :=
  (enumFrom 0 contacts).map fun p =>
    if pyFalsyName p.2.name then ⟨some (base ++ ' ' :: natToChars (p.1 + 1)), p.2.phone⟩
    else p.2

/-- Modelled from the spec (section 4.1 phone shape), for comparison with
the code: an optional leading plus sign, then only digits, between 7 and
15 of them in total.  The nonzero leading digit of the shape is optional,
so it adds no constraint beyond the digit count here. -/
def specPhoneShape (s : List Char) : Bool :=
  let t := if s.head? = some '+' then s.tail else s
  t.all Char.isDigit && 7 ≤ t.length && t.length ≤ 15

/-- Count of non-blank lines of the input, as the spec counts them:
lines whose stripped form is nonempty. -/
def nonBlankLineCount (text : List Char) : Nat :=
  (((splitOnNewline (stripList text)).map stripList).filter (fun l => !l.isEmpty)).length

/-- Records contributed by one line: the number of phone matches when
there is at least one, else at most one (the bare-digit fallback). -/
def lineRecordBound (line : List Char) : Nat :=
  if (stripList line).isEmpty then 0 else max 1 (findAll (stripList line)).length

def recordBudget (text : List Char) : Nat :=
  ((splitOnNewline (stripList text)).map lineRecordBound).sum

/-! ### Basic lemmas about the helper functions -/

theorem isDigit_of_between (c : Char) (h1 : '1' ≤ c) (h2 : c ≤ '9') : c.isDigit := by
  rw [Char.le_def] at h1 h2
  have h1n : (49 : Nat) ≤ c.val.toNat := h1
  have h2n : c.val.toNat ≤ 57 := h2
  simp only [Char.isDigit, ge_iff_le, Bool.and_eq_true, decide_eq_true_eq]
  exact ⟨show (48 : Nat) ≤ c.val.toNat by omega, show c.val.toNat ≤ 57 from h2n⟩

theorem digitRun_le_length (s : List Char) : digitRun s ≤ s.length := by
  induction s with
  | nil => simp [digitRun]
  | cons c cs ih =>
    by_cases h : c.isDigit <;> simp [digitRun, h] <;> omega

theorem take_all_isDigit (s : List Char) (j : Nat) (h : j ≤ digitRun s) :
    (s.take j).all Char.isDigit := by
  induction s generalizing j with
  | nil =>
    simp [digitRun] at h
    simp [h]
  | cons c cs ih =>
    cases j with
    | zero => simp
    | succ j =>
      by_cases hc : c.isDigit
      · simp only [digitRun, hc, if_true] at h
        simp only [List.take_succ_cons, List.all_cons, hc, Bool.true_and]
        exact ih j (by omega)
      · simp [digitRun, hc] at h

theorem dropWhile_eq_self_of_none (l : List Char) (h : ∀ c ∈ l, pyIsSpace c = false) :
    l.dropWhile pyIsSpace = l := by
  cases l with
  | nil => rfl
  | cons c cs => simp [List.dropWhile, h c (List.mem_cons_self c cs)]

theorem stripList_eq_self (l : List Char) (h : ∀ c ∈ l, pyIsSpace c = false) :
    stripList l = l := by
  unfold stripList
  rw [dropWhile_eq_self_of_none l h,
    dropWhile_eq_self_of_none l.reverse (fun c hc => h c (List.mem_reverse.mp hc)),
    List.reverse_reverse]

theorem enumFrom_length {α : Type} (n : Nat) (l : List α) :
    (enumFrom n l).length = l.length := by
  induction l generalizing n with
  | nil => rfl
  | cons a as ih => simp [enumFrom, ih]

theorem enumFrom_getElem? {α : Type} (n : Nat) (l : List α) (i : Nat) :
    (enumFrom n l)[i]? = (l[i]?).map fun a => (n + i, a) := by
  induction l generalizing n i with
  | nil => simp [enumFrom]
  | cons a as ih =>
    cases i with
    | zero => simp [enumFrom]
    | succ i =>
      simp only [enumFrom, List.getElem?_cons_succ, ih (n + 1) i]
      cases as[i]? <;> simp <;> omega

theorem splitAux_nil {α : Type} (fuel k : Nat) : splitAux fuel ([] : List α) k = [] := by
  cases fuel <;> rfl

theorem splitAux_flatten {α : Type} (fuel : Nat) :
    ∀ (l : List α) (k : Nat), l.length ≤ fuel → 0 < k →
      (splitAux fuel l k).flatten = l := by
  induction fuel with
  | zero =>
    intro l k hl _
    have : l = [] := List.eq_nil_of_length_eq_zero (Nat.le_zero.mp hl)
    subst this; rfl
  | succ fuel ih =>
    intro l k hl hk
    cases l with
    | nil => rfl
    | cons a as =>
      have hk0 : k ≠ 0 := Nat.pos_iff_ne_zero.mp hk
      simp only [splitAux, hk0, if_false, List.flatten_cons]
      simp only [List.length_cons] at hl
      rw [ih ((a :: as).drop k) k (by simp [List.length_drop, List.length_cons]; omega) hk]
      exact List.take_append_drop k (a :: as)

theorem splitAux_chunk_le {α : Type} (fuel : Nat) :
    ∀ (l : List α) (k : Nat) (ch : List α), ch ∈ splitAux fuel l k → ch.length ≤ k := by
  induction fuel with
  | zero => intro l k ch h; simp [splitAux] at h
  | succ fuel ih =>
    intro l k ch h
    cases l with
    | nil => simp [splitAux] at h
    | cons a as =>
      by_cases hk0 : k = 0
      · simp [splitAux, hk0] at h
      · simp only [splitAux, hk0, if_false, List.mem_cons] at h
        cases h with
        | inl h => subst h; exact List.length_take_le k (a :: as)
        | inr h => exact ih _ _ _ h

theorem splitAux_getElem? {α : Type} (fuel : Nat) :
    ∀ (l : List α) (k i : Nat), l.length ≤ fuel → 0 < k →
      i < (splitAux fuel l k).length →
      (splitAux fuel l k)[i]? = some ((l.drop (i * k)).take k) := by
  induction fuel with
  | zero => intro l k i _ _ hi; simp [splitAux] at hi
  | succ fuel ih =>
    intro l k i hl hk hi
    cases l with
    | nil => simp [splitAux] at hi
    | cons a as =>
      have hk0 : k ≠ 0 := Nat.pos_iff_ne_zero.mp hk
      simp only [splitAux, hk0, if_false] at hi ⊢
      simp only [List.length_cons] at hl
      cases i with
      | zero => simp
      | succ i =>
        simp only [List.getElem?_cons_succ]
        rw [ih ((a :: as).drop k) k i
          (by simp [List.length_drop, List.length_cons]; omega) hk
          (by simpa using hi)]
        rw [List.drop_drop]
        congr 2
        ring_nf

theorem splitAux_nonlast {α : Type} (fuel : Nat) :
    ∀ (l : List α) (k i : Nat) (ch : List α), l.length ≤ fuel → 0 < k →
      (splitAux fuel l k)[i]? = some ch →
      i + 1 < (splitAux fuel l k).length → ch.length = k := by
  induction fuel with
  | zero => intro l k i ch _ _ h _; simp [splitAux] at h
  | succ fuel ih =>
    intro l k i ch hl hk h hlast
    cases l with
    | nil => simp [splitAux] at h
    | cons a as =>
      have hk0 : k ≠ 0 := Nat.pos_iff_ne_zero.mp hk
      simp only [splitAux, hk0, if_false] at h hlast
      cases i with
      | zero =>
        simp only [List.getElem?_cons_zero, Option.some_inj] at h
        subst h
        simp only [List.length_cons, Nat.add_lt_add_iff_right] at hlast
        have hne : splitAux fuel ((a :: as).drop k) k ≠ [] := by
          intro hnil; rw [hnil] at hlast; simp at hlast
        have hdrop : (a :: as).drop k ≠ [] := by
          intro hnil; rw [hnil, splitAux_nil] at hne; exact hne rfl
        have hklen : k < (a :: as).length := by
          by_contra hcon
          exact hdrop (List.drop_eq_nil_of_le (by omega))
        simp only [List.length_cons] at hklen
        simp [List.length_take, List.length_cons]
        omega
      | succ i =>
        simp only [List.getElem?_cons_succ] at h
        simp only [List.length_cons] at hl
        exact ih ((a :: as).drop k) k i ch
          (by simp [List.length_drop, List.length_cons]; omega) hk h
          (by simpa using hlast)

/-! ### Characterisation of the phone regex matcher -/

theorem pyIsSpace_eq_false_of_isDigit (c : Char) (h : c.isDigit = true) :
    pyIsSpace c = false := by
  simp only [Char.isDigit, ge_iff_le, Bool.and_eq_true, decide_eq_true_eq] at h
  have h1 : (48 : Nat) ≤ c.val.toNat := h.1
  have h2 : c.val.toNat ≤ 57 := h.2
  have hne : ∀ d : Char, d.toNat < 48 → c ≠ d := by
    intro d hd e
    subst e
    exact absurd h1 (by simpa [Char.toNat] using Nat.not_le.mpr hd)
  simp only [pyIsSpace, Bool.or_eq_false_iff, decide_eq_false_iff_not]
  refine ⟨⟨⟨⟨⟨hne ' ' (by decide), hne '\t' (by decide)⟩, hne '\n' (by decide)⟩,
    hne '\r' (by decide)⟩, ?_⟩, ?_⟩ <;> simp [Char.toNat] <;> omega

theorem pyIsSpace_plus : pyIsSpace '+' = false := by decide

theorem coreLen_spec (s : List Char) (m : Nat) (h : coreLen s = some m) :
    (s.take m).all Char.isDigit = true ∧ (s.take m).length = m ∧ 7 ≤ m ∧ m ≤ 16 ∧
      (m = 16 → ∃ d tl, s = d :: tl ∧ '1' ≤ d ∧ d ≤ '9') := by
  cases s with
  | nil => simp [coreLen] at h
  | cons c rest =>
    simp only [coreLen] at h
    split_ifs at h with h1 h2
    · obtain ⟨hc1, hc9, hrun⟩ := h1
      have hm : m = 1 + min (digitRun rest) 15 := (Option.some_inj.mp h).symm
      have hmin_le : min (digitRun rest) 15 ≤ digitRun rest := Nat.min_le_left _ _
      have hlen : min (digitRun rest) 15 ≤ rest.length :=
        le_trans hmin_le (digitRun_le_length rest)
      have htake : (c :: rest).take m = c :: rest.take (min (digitRun rest) 15) := by
        rw [hm, Nat.add_comm, List.take_succ_cons]
      refine ⟨?_, ?_, by omega, by omega, ?_⟩
      · rw [htake]
        simp only [List.all_cons, Bool.and_eq_true]
        exact ⟨isDigit_of_between c hc1 hc9, take_all_isDigit rest _ hmin_le⟩
      · rw [htake]
        simp only [List.length_cons, List.length_take_of_le hlen]
        omega
      · intro _
        exact ⟨c, rest, rfl, hc1, hc9⟩
    · have hm : m = min (digitRun (c :: rest)) 15 := (Option.some_inj.mp h).symm
      have hmin_le : m ≤ digitRun (c :: rest) := hm ▸ Nat.min_le_left _ _
      have hlen : m ≤ (c :: rest).length :=
        le_trans hmin_le (digitRun_le_length (c :: rest))
      refine ⟨take_all_isDigit _ m hmin_le, List.length_take_of_le hlen, by omega,
        by omega, by omega⟩

theorem matchLen_spec (s : List Char) (n : Nat) (h : matchLen s = some n) :
    ∃ plus ds, s.take n = plus ++ ds ∧ (plus = [] ∨ plus = ['+']) ∧
      ds.all Char.isDigit = true ∧ 7 ≤ ds.length ∧ ds.length ≤ 16 ∧
      (ds.length = 16 → ∃ d tl, ds = d :: tl ∧ '1' ≤ d ∧ d ≤ '9') := by
  cases s with
  | nil => simp [matchLen] at h
  | cons c rest =>
    simp only [matchLen] at h
    by_cases hc : c = '+'
    · subst hc
      rw [if_pos rfl] at h
      cases hm : coreLen rest with
      | none => rw [hm] at h; exact Option.noConfusion h
      | some m =>
        rw [hm] at h
        have hn : n = m + 1 := by
          simp at h
          omega
        obtain ⟨hall, hlen, h7, h16, hhead⟩ := coreLen_spec rest m hm
        refine ⟨['+'], rest.take m, ?_, Or.inr rfl, hall, ?_, ?_, ?_⟩
        · rw [hn, List.take_succ_cons]
          rfl
        · omega
        · omega
        · intro h16'
          have hm16 : m = 16 := by omega
          obtain ⟨d, tl, hd, hd1, hd9⟩ := hhead hm16
          have htk : rest.take m = d :: tl.take 15 := by
            rw [hd, hm16, show (16 : Nat) = 15 + 1 from rfl, List.take_succ_cons]
          exact ⟨d, tl.take 15, htk, hd1, hd9⟩
    · rw [if_neg hc] at h
      obtain ⟨hall, hlen, h7, h16, hhead⟩ := coreLen_spec (c :: rest) n h
      refine ⟨[], (c :: rest).take n, by simp, Or.inl rfl, hall, by omega, by omega, ?_⟩
      intro h'
      have hn16 : n = 16 := hlen.symm.trans h'
      obtain ⟨d, tl, hd, hd1, hd9⟩ := hhead hn16
      have htk : (c :: rest).take n = d :: tl.take 15 := by
        rw [hd, hn16, show (16 : Nat) = 15 + 1 from rfl, List.take_succ_cons]
      exact ⟨d, tl.take 15, htk, hd1, hd9⟩

theorem findAllAux_mem (fuel : Nat) :
    ∀ (s p : List Char), p ∈ findAllAux fuel s →
      ∃ t n, matchLen t = some n ∧ p = t.take n := by
  induction fuel with
  | zero => intro s p h; simp [findAllAux] at h
  | succ fuel ih =>
    intro s p h
    cases s with
    | nil => simp [findAllAux] at h
    | cons c rest =>
      cases hm : matchLen (c :: rest) with
      | none =>
        rw [findAllAux, hm] at h
        exact ih rest p h
      | some n =>
        rw [findAllAux, hm] at h
        simp only [List.mem_cons] at h
        cases h with
        | inl h => exact ⟨c :: rest, n, hm, h⟩
        | inr h => exact ih _ p h

theorem findAll_mem (s p : List Char) (h : p ∈ findAll s) :
    ∃ t n, matchLen t = some n ∧ p = t.take n :=
  findAllAux_mem s.length s p h

theorem stripList_of_digit_or_plus (p : List Char)
    (h : ∀ ch ∈ p, ch.isDigit = true ∨ ch = '+') : stripList p = p := by
  refine stripList_eq_self p fun c hc => ?_
  cases h c hc with
  | inl hd => exact pyIsSpace_eq_false_of_isDigit c hd
  | inr hp => rw [hp]; exact pyIsSpace_plus

theorem matched_phone_spec (s p : List Char) (h : p ∈ findAll s) :
    p ≠ [] ∧ (∀ ch ∈ p, ch.isDigit = true ∨ ch = '+') ∧
      (∃ d ∈ p, d.isDigit = true) ∧ stripList p = p := by
  obtain ⟨t, n, hm, rfl⟩ := findAll_mem s p h
  obtain ⟨plus, ds, heq, hplus, hall, h7, _, _⟩ := matchLen_spec t n hm
  rw [heq]
  have hallmem : ∀ ch ∈ ds, ch.isDigit = true := List.all_eq_true.mp hall
  have hchars : ∀ ch ∈ plus ++ ds, ch.isDigit = true ∨ ch = '+' := by
    intro ch hch
    rcases List.mem_append.mp hch with hc | hc
    · right
      cases hplus with
      | inl hnil => rw [hnil] at hc; simp at hc
      | inr hone => rw [hone] at hc; simpa using hc
    · exact Or.inl (hallmem ch hc)
  have hds_ne : ds ≠ [] := by
    intro hnil
    rw [hnil] at h7
    simp at h7
  refine ⟨?_, hchars, ?_, stripList_of_digit_or_plus _ hchars⟩
  · intro hnil
    rcases List.append_eq_nil.mp hnil with ⟨-, h2⟩
    exact hds_ne h2
  · cases ds with
    | nil => exact absurd rfl hds_ne
    | cons d tl =>
      exact ⟨d, List.mem_append_right _ (List.mem_cons_self d tl),
        hallmem d (List.mem_cons_self d tl)⟩


theorem parseLine_phone_spec (line0 : List Char) (r : ContactRecord)
    (h : r ∈ parseLine line0) :
    r.phone ≠ [] ∧ (∀ ch ∈ r.phone, ch.isDigit = true ∨ ch = '+' ∨ ch = '-' ∨ ch = ' ') ∧
      ∃ d ∈ r.phone, d.isDigit = true := by
  by_cases hempty : (stripList line0).isEmpty
  · simp [parseLine, hempty] at h
  · by_cases hph : (findAll (stripList line0)).isEmpty
    · by_cases hdig : pyIsdigit ((stripList line0).filter keptBare)
      · simp only [parseLine, hempty, hph, hdig, Bool.false_eq_true, if_false, if_true,
          List.mem_singleton] at h
        subst h
        simp only
        simp only [pyIsdigit, Bool.and_eq_true, List.all_eq_true] at hdig
        obtain ⟨hfne, hall⟩ := hdig
        refine ⟨?_, ?_, ?_⟩
        · intro hnil
          rw [hnil] at hempty
          exact hempty rfl
        · intro ch hch
          by_cases hk : keptBare ch = true
          · exact Or.inl (hall ch (List.mem_filter.mpr ⟨hch, hk⟩))
          · right
            simp [keptBare] at hk
            tauto
        · cases hf : List.filter keptBare (stripList line0) with
          | nil =>
            rw [hf] at hfne
            simp at hfne
          | cons x xs =>
            have hx : x ∈ List.filter keptBare (stripList line0) := by
              rw [hf]; exact List.mem_cons_self x xs
            exact ⟨x, (List.mem_filter.mp hx).1, hall x hx⟩
      · simp [parseLine, hempty, hph, hdig] at h
    · simp only [parseLine, hempty, hph, Bool.false_eq_true, if_false, List.mem_map] at h
      obtain ⟨p, hp, hr⟩ := h
      obtain ⟨hne, hchars, hdex, hstrip⟩ := matched_phone_spec _ p hp
      rw [← hr]
      simp only [hstrip]
      refine ⟨hne, fun ch hch => ?_, ?_⟩
      · rcases hchars ch hch with hd | hpl
        · exact Or.inl hd
        · exact Or.inr (Or.inl hpl)
      · obtain ⟨d, hd, hdd⟩ := hdex
        exact ⟨d, hd, hdd⟩

theorem parse_mem_line (text : List Char) (r : ContactRecord)
    (h : r ∈ parse_contacts_from_text text) : ∃ line, r ∈ parseLine line := by
  unfold parse_contacts_from_text at h
  rw [List.mem_flatten] at h
  obtain ⟨l, hl, hr⟩ := h
  rw [List.mem_map] at hl
  obtain ⟨line, -, rfl⟩ := hl
  exact ⟨line, hr⟩

theorem createVcfAux_append (base : Option (List Char)) (l1 l2 : List ContactRecord) :
    ∀ s, createVcfAux base s (l1 ++ l2) =
      createVcfAux base s l1 ++ createVcfAux base (s + l1.length) l2 := by
  induction l1 with
  | nil => intro s; simp [createVcfAux]
  | cons a l1 ih =>
    intro s
    rw [List.cons_append]
    simp only [createVcfAux]
    rw [ih (s + 1), List.append_assoc]
    have he : s + 1 + l1.length = s + (a :: l1).length := by
      simp [List.length_cons]
      omega
    rw [he]

theorem createVcfAux_middle (base : Option (List Char)) (l1 : List ContactRecord)
    (c : ContactRecord) (l2 : List ContactRecord) (s : Nat) :
    createVcfAux base s (l1 ++ c :: l2) =
      createVcfAux base s l1
        ++ vcardBlock (resolveName base (s + l1.length) c.name) c.phone
        ++ createVcfAux base (s + l1.length + 1) l2 := by
  rw [createVcfAux_append base l1 (c :: l2) s]
  simp only [createVcfAux]
  rw [List.append_assoc]

theorem createVcfAux_eq_flatten (base : Option (List Char)) :
    ∀ (cs : List ContactRecord) (s : Nat),
      createVcfAux base s cs =
        ((enumFrom s cs).map fun p =>
          vcardBlock (resolveName base p.1 p.2.name) p.2.phone).flatten := by
  intro cs
  induction cs with
  | nil => intro s; rfl
  | cons c cs ih => intro s; simp [createVcfAux, enumFrom, ih]

theorem create_vcf_files_getElem? (contacts : List ContactRecord) (customName : List Char)
    (k : Nat) (hk : 0 < k) (i : Nat) (ch : List ContactRecord)
    (hch : (split_contacts contacts k)[i]? = some ch) :
    (create_vcf_files contacts customName (some k))[i]? =
      some ⟨customName ++ "_".toList ++ natToChars (i * k + 1) ++ "-".toList
          ++ natToChars (min ((i + 1) * k) contacts.length) ++ ".vcf".toList,
        create_vcf_content ch none⟩ := by
  have hcond : ¬ ((some k : Option Nat) = none ∨ (some k : Option Nat) = some 0) := by
    rintro (hno | hzero)
    · exact Option.noConfusion hno
    · rw [Option.some_inj] at hzero
      omega
  unfold create_vcf_files
  rw [if_neg hcond]
  simp only [Option.getD_some]
  rw [List.getElem?_map, enumFrom_getElem?, hch]
  dsimp only [Option.map]
  have h1 : 1 + i - 1 = i := by omega
  have h2 : 1 + i = i + 1 := by omega
  rw [h1, h2]

theorem create_vcf_files_length (contacts : List ContactRecord) (customName : List Char)
    (k : Nat) (hk : 0 < k) :
    (create_vcf_files contacts customName (some k)).length =
      (split_contacts contacts k).length := by
  have hcond : ¬ ((some k : Option Nat) = none ∨ (some k : Option Nat) = some 0) := by
    rintro (hno | hzero)
    · exact Option.noConfusion hno
    · rw [Option.some_inj] at hzero
      omega
  unfold create_vcf_files
  rw [if_neg hcond]
  simp [enumFrom_length]

theorem parseLine_length_le (line : List Char) :
    (parseLine line).length ≤ lineRecordBound line := by
  unfold parseLine lineRecordBound
  by_cases hempty : (stripList line).isEmpty
  · simp [hempty]
  · by_cases hph : (findAll (stripList line)).isEmpty
    · by_cases hdig : pyIsdigit ((stripList line).filter keptBare)
      · simp [hempty, hph, hdig]
      · simp [hempty, hph, hdig]
    · simp only [hempty, Bool.false_eq_true, if_false, hph, List.length_map]
      exact le_max_right 1 _

theorem applyBaseName_getElem? (contacts : List ContactRecord) (base : List Char) (j : Nat) :
    (applyBaseName contacts base)[j]? =
      (contacts[j]?).map fun c =>
        if pyFalsyName c.name then ⟨some (base ++ ' ' :: natToChars (j + 1)), c.phone⟩
        else c := by
  unfold applyBaseName
  rw [List.getElem?_map, enumFrom_getElem?]
  cases contacts[j]? with
  | none => rfl
  | some c => simp [Option.map]

theorem applyBaseName_length (contacts : List ContactRecord) (base : List Char) :
    (applyBaseName contacts base).length = contacts.length := by
  unfold applyBaseName
  rw [List.length_map, enumFrom_length]

/-! ### Claims C1 to C4: the extractor -/

/-- Claim C1, counterexample: on the single line +0123456789 the extractor
does return a record, so the claim that it returns none is false. -/
theorem C1_counterexample :
    parse_contacts_from_text "+0123456789".toList ≠ [] := by decide

/-- Claim C1 as amended: on the single line +0123456789 the extractor
returns exactly one record, with absent name and the whole line as phone:
the nonzero-digit element of the regex is optional, so a plus sign
followed by a zero and further digits still matches the phone scan. -/
theorem C1_extract_plus_zero :
    parse_contacts_from_text "+0123456789".toList =
      [⟨none, "+0123456789".toList⟩] := by decide

/-- Claim C2, counterexample: the line 1234567 2345678 has two phone
matches and so yields two records from one non-blank line, refuting the
claimed bound of one record per non-blank line. -/
theorem C2_counterexample :
    ¬ ((parse_contacts_from_text "1234567 2345678".toList).length ≤
        nonBlankLineCount "1234567 2345678".toList) := by decide

/-- Claim C2 as amended: the extractor is a total function (it never
raises), and the number of records is at most the sum over non-blank lines
of the number of phone matches on the line, or one when there is none
(the bare-digit fallback).  A line with several matches contributes one
record per match, so the bound of one record per non-blank line fails. -/
theorem C2_record_budget (text : List Char) :
    (parse_contacts_from_text text).length ≤ recordBudget text := by
  unfold parse_contacts_from_text recordBudget
  rw [List.length_flatten, List.map_map]
  exact List.sum_le_sum fun line hline => parseLine_length_le line

/-- Claim C3, counterexample: the line 123456 produces a record through
the bare-digit fallback whose phone has only six digits, so it does not
match the section 4.1 phone shape. -/
theorem C3_counterexample :
    parse_contacts_from_text "123456".toList = [⟨none, "123456".toList⟩] ∧
      specPhoneShape "123456".toList = false := by decide

/-- Claim C3 as amended: every record the extractor produces has a
non-empty phone in which every character is a digit, plus, minus or
space, and at least one character is a digit; phones from the scan path
match the regex shape, but fallback phones need not (six-digit lines or
digit groups separated by spaces and dashes are emitted verbatim). -/
theorem C3_phone_invariant (text : List Char) (r : ContactRecord)
    (h : r ∈ parse_contacts_from_text text) :
    r.phone ≠ [] ∧
      (∀ ch ∈ r.phone, ch.isDigit = true ∨ ch = '+' ∨ ch = '-' ∨ ch = ' ') ∧
      ∃ d ∈ r.phone, d.isDigit = true := by
  obtain ⟨line, hline⟩ := parse_mem_line text r h
  exact parseLine_phone_spec line r hline

theorem C3_phone_invariant_witness :
    (⟨none, "123456".toList⟩ : ContactRecord) ∈
        parse_contacts_from_text "123456".toList ∧
      ((⟨none, "123456".toList⟩ : ContactRecord).phone ≠ [] ∧
        (∀ ch ∈ (⟨none, "123456".toList⟩ : ContactRecord).phone,
          ch.isDigit = true ∨ ch = '+' ∨ ch = '-' ∨ ch = ' ') ∧
        ∃ d ∈ (⟨none, "123456".toList⟩ : ContactRecord).phone, d.isDigit = true) :=
  ⟨by decide, C3_phone_invariant "123456".toList ⟨none, "123456".toList⟩ (by decide)⟩

/-- Claim C4, counterexample: a line of sixteen digits is matched whole by
the phone scan, so a matched phone can contain sixteen digits, more than
the claimed maximum of fifteen. -/
theorem C4_counterexample :
    findAll "1234567890123456".toList = ["1234567890123456".toList] ∧
      ¬ (List.countP Char.isDigit "1234567890123456".toList ≤ 15) := by decide

/-- Claim C4 as amended: every phone the scan produces is an optional
leading plus sign followed by 7 to 16 digits (not 15: the optional
nonzero leading digit can precede 15 counted digits), and a 16-digit
match starts with a nonzero digit. -/
theorem C4_match_shape (line p : List Char) (h : p ∈ findAll line) :
    ∃ plus ds, p = plus ++ ds ∧ (plus = [] ∨ plus = ['+']) ∧
      ds.all Char.isDigit = true ∧ 7 ≤ ds.length ∧ ds.length ≤ 16 ∧
      (ds.length = 16 → ∃ d tl, ds = d :: tl ∧ '1' ≤ d ∧ d ≤ '9') := by
  obtain ⟨t, n, hm, rfl⟩ := findAll_mem line p h
  exact matchLen_spec t n hm

theorem C4_match_shape_witness :
    "+1234567890".toList ∈ findAll "John Doe +1234567890".toList ∧
      ∃ plus ds, "+1234567890".toList = plus ++ ds ∧ (plus = [] ∨ plus = ['+']) ∧
        ds.all Char.isDigit = true ∧ 7 ≤ ds.length ∧ ds.length ≤ 16 ∧
        (ds.length = 16 → ∃ d tl, ds = d :: tl ∧ '1' ≤ d ∧ d ≤ '9') :=
  ⟨by decide, C4_match_shape "John Doe +1234567890".toList "+1234567890".toList (by decide)⟩

/-! ### Claims C5 to C8: batching and naming -/

/-- Claim C5: with a positive chunk size, the orchestrator emits one blob
per chunk in chunk order; the blob of 0-based chunk index i is named over
the 1-based contact range i*k+1 to min ((i+1)*k) N and its content is the
render of exactly that chunk, with no base name. -/
theorem C5_chunked_outputs (contacts : List ContactRecord) (pfx : List Char) (k : Nat)
    (hne : contacts ≠ []) (hk : 0 < k) :
    (create_vcf_files contacts pfx (some k)).length = (split_contacts contacts k).length ∧
    ∀ i, i < (create_vcf_files contacts pfx (some k)).length →
      (create_vcf_files contacts pfx (some k))[i]? =
        some ⟨pfx ++ "_".toList ++ natToChars (i * k + 1) ++ "-".toList
            ++ natToChars (min ((i + 1) * k) contacts.length) ++ ".vcf".toList,
          create_vcf_content ((contacts.drop (i * k)).take k) none⟩ := by
  have hlen := create_vcf_files_length contacts pfx k hk
  refine ⟨hlen, fun i hi => ?_⟩
  have hi2 : i < (split_contacts contacts k).length := hlen ▸ hi
  have hch : (split_contacts contacts k)[i]? = some ((contacts.drop (i * k)).take k) := by
    unfold split_contacts at hi2 ⊢
    exact splitAux_getElem? contacts.length contacts k i (le_refl _) hk hi2
  exact create_vcf_files_getElem? contacts pfx k hk i _ hch

set_option maxRecDepth 8192 in
theorem C5_chunked_outputs_witness :
    (create_vcf_files (List.replicate 120 (⟨some "N".toList, "1".toList⟩ : ContactRecord))
        "zeno".toList (some 50)).length = 3 ∧
    (create_vcf_files (List.replicate 120 (⟨some "N".toList, "1".toList⟩ : ContactRecord))
        "zeno".toList (some 50))[2]? =
      some ⟨"zeno_101-120.vcf".toList,
        create_vcf_content
          (((List.replicate 120 (⟨some "N".toList, "1".toList⟩ : ContactRecord)).drop
            100).take 50) none⟩ := by
  have h := C5_chunked_outputs
    (List.replicate 120 (⟨some "N".toList, "1".toList⟩ : ContactRecord))
    "zeno".toList 50 (by decide) (by decide)
  constructor
  · rw [h.1]
    decide
  · have h2 := h.2 2 (by rw [h.1]; decide)
    rw [h2]
    decide

/-- Claim C6: a record with an absent name is rendered with the fallback
FN Contact followed by its 1-based position inside its own chunk (j is
the 0-based position in the chunk), restarting at 1 for every chunk,
regardless of the record's position in the global sequence. -/
theorem C6_fallback_numbering_per_chunk (contacts : List ContactRecord) (pfx : List Char)
    (k i j : Nat) (ch : List ContactRecord) (c : ContactRecord) (hk : 0 < k)
    (hch : (split_contacts contacts k)[i]? = some ch)
    (hc : ch[j]? = some c) (hname : c.name = none) :
    ∃ b, (create_vcf_files contacts pfx (some k))[i]? = some b ∧
      ∃ pre post, b.content =
        pre ++ vcardBlock ("Contact ".toList ++ natToChars (j + 1)) c.phone ++ post := by
  have hb := create_vcf_files_getElem? contacts pfx k hk i ch hch
  obtain ⟨hj, hcj⟩ := List.getElem?_eq_some_iff.mp hc
  have hdecomp : ch = ch.take j ++ c :: ch.drop (j + 1) := by
    conv_lhs => rw [← List.take_append_drop j ch]
    rw [List.drop_eq_getElem_cons hj, hcj]
  refine ⟨_, hb, createVcfAux none 1 (ch.take j),
    createVcfAux none (j + 1 + 1) (ch.drop (j + 1)), ?_⟩
  show create_vcf_content ch none = _
  conv_lhs => rw [hdecomp]
  unfold create_vcf_content
  rw [createVcfAux_middle, List.length_take_of_le (le_of_lt hj),
    show (1 : Nat) + j = j + 1 from Nat.add_comm 1 j, hname]
  rfl

theorem C6_fallback_numbering_per_chunk_witness :
    ∃ b, (create_vcf_files
        [⟨some "A".toList, "1".toList⟩, ⟨some "B".toList, "2".toList⟩,
          ⟨none, "3".toList⟩] "f".toList (some 2))[1]? = some b ∧
      ∃ pre post, b.content =
        pre ++ vcardBlock ("Contact ".toList ++ natToChars (0 + 1))
          (⟨none, "3".toList⟩ : ContactRecord).phone ++ post :=
  C6_fallback_numbering_per_chunk
    [⟨some "A".toList, "1".toList⟩, ⟨some "B".toList, "2".toList⟩, ⟨none, "3".toList⟩]
    "f".toList 2 1 0 [⟨none, "3".toList⟩] ⟨none, "3".toList⟩ (by decide) (by decide)
    (by decide) rfl

/-- Claim C7: applying a base name renames exactly the records with an
absent name, to the base name followed by the record's 1-based position in
the whole sequence, and leaves records with a (nonempty) name untouched.
The hypothesis that no name is the empty string holds for every extractor
output, which is the only input this code path receives. -/
theorem C7_apply_base_name (contacts : List ContactRecord) (base : List Char)
    (hnames : ∀ c ∈ contacts, c.name ≠ some []) :
    (applyBaseName contacts base).length = contacts.length ∧
    ∀ (j : Nat) (c : ContactRecord), contacts[j]? = some c →
      (c.name = none →
        (applyBaseName contacts base)[j]? =
          some ⟨some (base ++ ' ' :: natToChars (j + 1)), c.phone⟩) ∧
      ∀ s, c.name = some s → (applyBaseName contacts base)[j]? = some c := by
  refine ⟨applyBaseName_length contacts base, fun j c hc => ⟨?_, ?_⟩⟩
  · intro hn
    rw [applyBaseName_getElem?, hc]
    dsimp only [Option.map]
    rw [hn]
    simp [pyFalsyName]
  · intro s hs
    have hne : s ≠ [] := by
      intro he
      exact hnames c (List.getElem?_mem hc) (by rw [hs, he])
    rw [applyBaseName_getElem?, hc]
    dsimp only [Option.map]
    rw [hs]
    simp [pyFalsyName, hne]

theorem C7_apply_base_name_witness :
    (applyBaseName [⟨none, "1".toList⟩, ⟨some "Bob".toList, "2".toList⟩,
        ⟨none, "3".toList⟩] "X".toList)[0]? = some ⟨some "X 1".toList, "1".toList⟩ ∧
    (applyBaseName [⟨none, "1".toList⟩, ⟨some "Bob".toList, "2".toList⟩,
        ⟨none, "3".toList⟩] "X".toList)[1]? = some ⟨some "Bob".toList, "2".toList⟩ ∧
    (applyBaseName [⟨none, "1".toList⟩, ⟨some "Bob".toList, "2".toList⟩,
        ⟨none, "3".toList⟩] "X".toList)[2]? = some ⟨some "X 3".toList, "3".toList⟩ := by
  have h := C7_apply_base_name
    [⟨none, "1".toList⟩, ⟨some "Bob".toList, "2".toList⟩, ⟨none, "3".toList⟩]
    "X".toList (by decide)
  refine ⟨?_, ?_, ?_⟩
  · rw [(h.2 0 ⟨none, "1".toList⟩ (by decide)).1 rfl]
    decide
  · rw [(h.2 1 ⟨some "Bob".toList, "2".toList⟩ (by decide)).2 "Bob".toList rfl]
  · rw [(h.2 2 ⟨none, "3".toList⟩ (by decide)).1 rfl]
    decide

/-- Claim C8: chunking with positive size round-trips (the concatenation
of the chunks is the input in order), every chunk has length at most the
size, and every chunk except possibly the last has length exactly the
size. -/
theorem C8_chunk_roundtrip (contacts : List ContactRecord) (k : Nat) (hk : 0 < k) :
    (split_contacts contacts k).flatten = contacts ∧
    (∀ ch ∈ split_contacts contacts k, ch.length ≤ k) ∧
    ∀ (i : Nat) (ch : List ContactRecord), (split_contacts contacts k)[i]? = some ch →
      i + 1 < (split_contacts contacts k).length → ch.length = k := by
  unfold split_contacts
  exact ⟨splitAux_flatten contacts.length contacts k (le_refl _) hk,
    fun ch hch => splitAux_chunk_le contacts.length contacts k ch hch,
    fun i ch hch hlt =>
      splitAux_nonlast contacts.length contacts k i ch (le_refl _) hk hch hlt⟩

theorem C8_chunk_roundtrip_witness :
    (split_contacts ([⟨none, "1".toList⟩, ⟨none, "2".toList⟩, ⟨none, "3".toList⟩,
        ⟨none, "4".toList⟩, ⟨none, "5".toList⟩] : List ContactRecord) 2).flatten =
      ([⟨none, "1".toList⟩, ⟨none, "2".toList⟩, ⟨none, "3".toList⟩,
        ⟨none, "4".toList⟩, ⟨none, "5".toList⟩] : List ContactRecord) ∧
    (∀ ch ∈ split_contacts ([⟨none, "1".toList⟩, ⟨none, "2".toList⟩, ⟨none, "3".toList⟩,
        ⟨none, "4".toList⟩, ⟨none, "5".toList⟩] : List ContactRecord) 2, ch.length ≤ 2) ∧
    ∀ (i : Nat) (ch : List ContactRecord),
      (split_contacts ([⟨none, "1".toList⟩, ⟨none, "2".toList⟩, ⟨none, "3".toList⟩,
        ⟨none, "4".toList⟩, ⟨none, "5".toList⟩] : List ContactRecord) 2)[i]? = some ch →
      i + 1 < (split_contacts ([⟨none, "1".toList⟩, ⟨none, "2".toList⟩, ⟨none, "3".toList⟩,
        ⟨none, "4".toList⟩, ⟨none, "5".toList⟩] : List ContactRecord) 2).length →
      ch.length = 2 :=
  C8_chunk_roundtrip
    [⟨none, "1".toList⟩, ⟨none, "2".toList⟩, ⟨none, "3".toList⟩,
      ⟨none, "4".toList⟩, ⟨none, "5".toList⟩] 2 (by decide)

/-! ### Claims C9 and C10: the renderer -/

/-- Claim C9: the renderer emits, for each contact in input order, exactly
the five vCard lines followed by one blank line, with nothing after the
final blank line, and on the single contact with name A and phone 1 the
output is exactly the expected string. -/
theorem C9_render_layout :
    (∀ (contacts : List ContactRecord) (base : Option (List Char)),
      create_vcf_content contacts base =
        ((enumFrom 1 contacts).map fun p =>
          vcardBlock (resolveName base p.1 p.2.name) p.2.phone).flatten) ∧
    create_vcf_content [⟨some "A".toList, "1".toList⟩] none =
      "BEGIN:VCARD\nVERSION:3.0\nFN:A\nTEL:1\nEND:VCARD\n\n".toList :=
  ⟨fun contacts base => createVcfAux_eq_flatten base contacts 1, by decide⟩

/-- Claim C10: the renderer treats an empty-string name exactly as an
absent name, because the test is Python falsiness: replacing the
empty-string name by an absent one leaves the output unchanged, and the
record's emitted FN is the same fallback an absent name receives. -/
theorem C10_empty_name_as_absent (cs : List ContactRecord) (base : Option (List Char))
    (j : Nat) (c : ContactRecord) (hc : cs[j]? = some c) (hname : c.name = some []) :
    create_vcf_content cs base =
      create_vcf_content (cs.take j ++ ⟨none, c.phone⟩ :: cs.drop (j + 1)) base ∧
    ∃ pre post, create_vcf_content cs base =
      pre ++ vcardBlock (resolveName base (j + 1) none) c.phone ++ post := by
  obtain ⟨hj, hcj⟩ := List.getElem?_eq_some_iff.mp hc
  have hdecomp : cs = cs.take j ++ c :: cs.drop (j + 1) := by
    conv_lhs => rw [← List.take_append_drop j cs]
    rw [List.drop_eq_getElem_cons hj, hcj]
  constructor
  · conv_lhs => rw [hdecomp]
    unfold create_vcf_content
    rw [createVcfAux_middle, createVcfAux_middle, hname]
    rfl
  · refine ⟨createVcfAux base 1 (cs.take j),
      createVcfAux base (j + 1 + 1) (cs.drop (j + 1)), ?_⟩
    conv_lhs => rw [hdecomp]
    unfold create_vcf_content
    rw [createVcfAux_middle, List.length_take_of_le (le_of_lt hj),
      show (1 : Nat) + j = j + 1 from Nat.add_comm 1 j, hname]
    rfl

theorem C10_empty_name_as_absent_witness :
    create_vcf_content [⟨some "Z".toList, "1".toList⟩, ⟨some [], "7".toList⟩]
        (some "Y".toList) =
      create_vcf_content
        (([⟨some "Z".toList, "1".toList⟩, ⟨some [], "7".toList⟩] :
          List ContactRecord).take 1 ++
          ⟨none, (⟨some [], "7".toList⟩ : ContactRecord).phone⟩ ::
          ([⟨some "Z".toList, "1".toList⟩, ⟨some [], "7".toList⟩] :
            List ContactRecord).drop 2) (some "Y".toList) ∧
    ∃ pre post,
      create_vcf_content [⟨some "Z".toList, "1".toList⟩, ⟨some [], "7".toList⟩]
          (some "Y".toList) =
        pre ++ vcardBlock (resolveName (some "Y".toList) 2 none)
          (⟨some [], "7".toList⟩ : ContactRecord).phone ++ post :=
  C10_empty_name_as_absent
    [⟨some "Z".toList, "1".toList⟩, ⟨some [], "7".toList⟩]
    (some "Y".toList) 1 ⟨some [], "7".toList⟩ (by decide) rfl
